import Mathlib

/-!
Verification of the Picteractive drawing stage (src/src/App.jsx): the flood-fill
engine, the undo/redo history stack, the quality gate, the panel collection and
the brush/eraser tool configuration, embedded shallowly as executable Lean
functions over explicit pixel buffers and lists.
-/

/-- An RGBA pixel as read from `getImageData`: four channels in 0–255. -/
structure Rgba where
  r : Nat
  g : Nat
  b : Nat
  a : Nat
deriving DecidableEq, Repr

instance : Inhabited Rgba := ⟨⟨0, 0, 0, 0⟩⟩

/-- Is `c` one of the characters `0-9a-fA-F` accepted by `parseInt(-, 16)`. -/
def isHexDigit (c : Char) : Bool :=
  ('0' ≤ c && c ≤ '9') || ('a' ≤ c && c ≤ 'f') || ('A' ≤ c && c ≤ 'F')

/-- Numeric value of a hex digit (meaningful when `isHexDigit c`). -/
def hexDigitVal (c : Char) : Nat :=
  if '0' ≤ c && c ≤ '9' then c.toNat - '0'.toNat
  else if 'a' ≤ c && c ≤ 'f' then c.toNat - 'a'.toNat + 10
  else c.toNat - 'A'.toNat + 10

/-- Value of a list of hex digits, most significant first. -/
def hexListVal (cs : List Char) : Nat :=
  cs.foldl (fun acc c => acc * 16 + hexDigitVal c) 0

/-- JS `parseInt(s, 16)`: skip leading whitespace, optional sign, optional
`0x`/`0X`, then the longest run of hex digits; `none` models NaN (no digit). -/
def jsParseIntHex (s : List Char) : Option Int :=
  let cs := s.dropWhile Char.isWhitespace
  let sgn : Int := if cs.head? = some '-' then -1 else 1
  let cs1 := match cs with
    | '-' :: rest => rest
    | '+' :: rest => rest
    | _ => cs
  let cs2 := match cs1 with
    | '0' :: 'x' :: rest => rest
    | '0' :: 'X' :: rest => rest
    | _ => cs1
  let ds := cs2.takeWhile isHexDigit
  if ds = [] then none else some (sgn * (hexListVal ds : Int))

/-- JS `s.trim()` on a character list. -/
def jsTrim (cs : List Char) : List Char :=
  ((cs.dropWhile Char.isWhitespace).reverse.dropWhile Char.isWhitespace).reverse

/-- JS `(n >> k) & 255` for the 32-bit-safe integers produced here: arithmetic
shift is floor division, and the low-byte mask is the Euclidean remainder. -/
def jsShrByte (n : Int) (k : Nat) : Nat :=
  ((n.fdiv (2 ^ k)).emod 256).toNat

/-- The trimmed, `#`-stripped, 3-to-6 doubled candidate hex body
(App.jsx lines 1191–1194). -/
def hexBody (hex : List Char) : List Char :=
  let h0 := jsTrim hex
  let h1 := if h0.head? = some '#' then h0.tail else h0
  if h1.length = 3 then h1.foldr (fun c acc => c :: c :: acc) [] else h1

/-- `hexToRgba` (App.jsx lines 1190–1198): empty input, a body that is not six
characters long, or a failed parse yield opaque black; otherwise the three
bytes of the parsed number with alpha 255. -/
def hexToRgba (hex : List Char) : Rgba :=
  if jsTrim hex = [] then ⟨0, 0, 0, 255⟩
  else if (hexBody hex).length ≠ 6 then ⟨0, 0, 0, 255⟩
  else
    match jsParseIntHex (hexBody hex) with
    | none => ⟨0, 0, 0, 255⟩
    | some num => ⟨jsShrByte num 16, jsShrByte num 8, jsShrByte num 0, 255⟩

/-! ## History manager (App.jsx lines 1160–1187) -/

/-- The history state: the scene shown on the canvas together with the two
snapshot stacks (array end = JS array end = top). -/
structure Hist (α : Type) where
  cur : α
  undo : List α
  redo : List α
deriving DecidableEq, Repr

/-- `push()` (App.jsx line 1160): clear `redo`, append the freshly committed
scene, and drop the oldest entry when the stack exceeds 30. -/
def pushOp {α : Type} (s : α) (h : Hist α) : Hist α :=
  { cur := s
    undo := if 30 < (h.undo ++ [s]).length then (h.undo ++ [s]).drop 1 else h.undo ++ [s]
    redo := [] }

/-- `handleUndo()` (App.jsx line 1162): no-op when the stack has at most one
entry; otherwise pop the top onto `redo` and restore the new top. -/
def undoOp {α : Type} (h : Hist α) : Hist α :=
  if h.undo.length ≤ 1 then h
  else
    let top := h.undo.getLastD h.cur
    let u := h.undo.dropLast
    { cur := u.getLastD h.cur, undo := u, redo := h.redo ++ [top] }

/-- `handleRedo()` (App.jsx line 1163): no-op when `redo` is empty; otherwise
pop it, push it back onto `undo` and restore it. -/
def redoOp {α : Type} (h : Hist α) : Hist α :=
  if h.redo.length = 0 then h
  else
    let s := h.redo.getLastD h.cur
    { cur := s, undo := h.undo ++ [s], redo := h.redo.dropLast }

/-- A user-visible history operation of the drawing stage. -/
inductive HOp (α : Type) where
  | commit (s : α)
  | undo
  | redo

/-- Apply one history operation. -/
def applyHOp {α : Type} (h : Hist α) : HOp α → Hist α
  | .commit s => pushOp s h
  | .undo => undoOp h
  | .redo => redoOp h

/-- Apply a sequence of history operations, oldest first. -/
def applyHOps {α : Type} (h : Hist α) (ops : List (HOp α)) : Hist α :=
  ops.foldl applyHOp h

/-- The mounted history state before any commit: both stacks empty. -/
def initHist {α : Type} (c : α) : Hist α := { cur := c, undo := [], redo := [] }

/-- The state `handleClear()` leaves behind (App.jsx lines 1164–1187): both
stacks reset, then the cleared scene committed as the sole entry. -/
def clearedHist {α : Type} (s : α) : Hist α := { cur := s, undo := [s], redo := [] }

/-- The cap invariant maintained by the history manager. -/
def histCapInv {α : Type} (h : Hist α) : Prop :=
  h.undo.length ≤ 30 ∧ h.undo.length + h.redo.length ≤ 30

/-! ## Flood fill (App.jsx lines 1200–1273) -/

/-- Per-channel JS `Math.abs(a - b)` on byte values. -/
def chDiff (a b : Nat) : Nat := ((a : Int) - (b : Int)).natAbs

/-- `matches(i)` (App.jsx lines 1227–1232): every channel within the fixed
tolerance 8 of the target color. -/
def matchPx (p t : Rgba) : Bool :=
  chDiff p.r t.r ≤ 8 && chDiff p.g t.g ≤ 8 && chDiff p.b t.b ≤ 8 && chDiff p.a t.a ≤ 8

/-- Linear index of a pixel in the row-major RGBA buffer of width `W`
(`y*width + x`, App.jsx line 1241). -/
def pixIdx (W : Nat) (p : Int × Int) : Nat := p.2.toNat * W + p.1.toNat

/-- The bounds test of the loop (`x<0 || y<0 || x>=width || y>=height`), negated. -/
def inBounds (W H : Nat) (p : Int × Int) : Prop :=
  0 ≤ p.1 ∧ 0 ≤ p.2 ∧ p.1 < (W : Int) ∧ p.2 < (H : Int)

instance (W H : Nat) (p : Int × Int) : Decidable (inBounds W H p) := by
  unfold inBounds; infer_instance

/-- Number of yet-unset entries in the visited bitmap. -/
def countZeros : List Nat → Nat
  | [] => 0
  | v :: rest => (if v = 0 then 1 else 0) + countZeros rest

/-- The iterative stack-based loop (App.jsx lines 1238–1255), stepping one
popped coordinate at a time.  The fuel argument makes the recursion structural;
`none` means the fuel ran out (the termination theorem shows the fuel used by
`floodFillAt` never does).  Pushed neighbor order matches the source's
`stack.push([x+1,y],[x-1,y],[x,y+1],[x,y-1])` with pop from the top. -/
def floodLoop (W H : Nat) (target fill : Rgba) :
    Nat → List (Int × Int) → List Rgba → List Nat → Option (List Rgba × List Nat)
  | 0, _, _, _ => none
  | _ + 1, [], data, visited => some (data, visited)
  | fuel + 1, (x, y) :: rest, data, visited =>
    if x < 0 ∨ y < 0 ∨ (W : Int) ≤ x ∨ (H : Int) ≤ y then
      floodLoop W H target fill fuel rest data visited
    else
      let i := pixIdx W (x, y)
      if visited.getD i 0 ≠ 0 then
        floodLoop W H target fill fuel rest data visited
      else if matchPx (data.getD i default) target then
        floodLoop W H target fill fuel
          ((x, y - 1) :: (x, y + 1) :: (x - 1, y) :: (x + 1, y) :: rest)
          (data.set i fill) (visited.set i 1)
      else
        floodLoop W H target fill fuel rest data visited

/-- `floodFillAt` (App.jsx lines 1200–1273) on an explicit W×H row-major pixel
buffer.  `none` is the no-op path that commits nothing and pushes no history
snapshot: seed out of bounds, or seed color exactly equal to the fill color.
`some` is the committed working buffer, which the source installs as the new
background image and follows with `push()`. -/
def floodFillAt (W H : Nat) (data : List Rgba) (startX startY : Int)
    (fillHex : List Char) : Option (List Rgba) :=
  if startX < 0 ∨ startY < 0 ∨ (W : Int) ≤ startX ∨ (H : Int) ≤ startY then none
  else
    let fill := hexToRgba fillHex
    let target := data.getD (pixIdx W (startX, startY)) default
    if target = fill then none
    else
      (floodLoop W H target fill (4 * (W * H) + 2) [(startX, startY)] data
        (List.replicate (W * H) 0)).map Prod.fst

/-- One 4-neighbor step (the loop pushes exactly these four coordinates). -/
def adjacent (p q : Int × Int) : Prop :=
  (q.1 = p.1 + 1 ∧ q.2 = p.2) ∨ (q.1 = p.1 - 1 ∧ q.2 = p.2) ∨
  (q.1 = p.1 ∧ q.2 = p.2 + 1) ∨ (q.1 = p.1 ∧ q.2 = p.2 - 1)

instance (p q : Int × Int) : Decidable (adjacent p q) := by
  unfold adjacent; infer_instance

/-- A forward path of 4-neighbor steps all of whose pixels satisfy `ok`. -/
inductive FillPath (ok : Int × Int → Prop) : Int × Int → Int × Int → Prop where
  | refl (p : Int × Int) : ok p → FillPath ok p p
  | cons (p q r : Int × Int) : ok p → adjacent p q → FillPath ok q r → FillPath ok p r

/-- A pixel is fillable: in bounds and within tolerance of the target color in
the original buffer. -/
def okPix (W H : Nat) (data : List Rgba) (target : Rgba) (p : Int × Int) : Prop :=
  inBounds W H p ∧ matchPx (data.getD (pixIdx W p) default) target = true

/-- The 4-connected region of `data` reachable from `seed` through pixels whose
every channel is within tolerance 8 of `target`. -/
def FillReach (W H : Nat) (data : List Rgba) (target : Rgba) (seed q : Int × Int) : Prop :=
  FillPath (okPix W H data target) seed q

/-- A fillable pixel that the visited bitmap has not yet claimed. -/
def okPixU (W H : Nat) (data : List Rgba) (target : Rgba) (visited : List Nat)
    (p : Int × Int) : Prop :=
  okPix W H data target p ∧ visited.getD (pixIdx W p) 0 = 0

/-- Loop invariant of the flood-fill worklist, relating the live buffer and
visited bitmap to the original buffer `data0` and the reachable region. -/
structure LoopInv (W H : Nat) (data0 : List Rgba) (target fill : Rgba)
    (seed : Int × Int) (stack : List (Int × Int)) (data : List Rgba)
    (visited : List Nat) : Prop where
  hvlen : visited.length = W * H
  hdlen : data.length = W * H
  hvis : ∀ p, inBounds W H p → visited.getD (pixIdx W p) 0 ≠ 0 →
    FillReach W H data0 target seed p ∧ data.getD (pixIdx W p) default = fill
  horig : ∀ p, inBounds W H p → visited.getD (pixIdx W p) 0 = 0 →
    data.getD (pixIdx W p) default = data0.getD (pixIdx W p) default
  hstack : ∀ p ∈ stack, p = seed ∨
    ∃ q, FillReach W H data0 target seed q ∧ adjacent q p
  hfull : ∀ q, FillReach W H data0 target seed q →
    visited.getD (pixIdx W q) 0 ≠ 0 ∨
      ∃ p ∈ stack, FillPath (okPixU W H data0 target visited) p q

/-! ## Quality gate, panel collection, brush (App.jsx lines 1134–1158, 1298–1353) -/

/-- Grayscale intensity `(r+g+b)/3` of one downsampled pixel
(App.jsx line 1308), as exact rational arithmetic. -/
def grayOf (p : Rgba) : ℚ := ((p.r : ℚ) + (p.g : ℚ) + (p.b : ℚ)) / 3

/-- `measureVarianceFromCanvas` (App.jsx lines 1300–1311) on the 64×64
grayscale downsample: population variance `sum2/n - mean^2`, clamped at 0,
with `n = 64*64` fixed. -/
def measureVariance (px : List Rgba) : ℚ :=
  let n : ℚ := 64 * 64
  let sum := (px.map grayOf).sum
  let sum2 := (px.map (fun p => grayOf p * grayOf p)).sum
  let mean := sum / n
  max 0 (sum2 / n - mean * mean)

/-- The encoded PNG capture; only its byte size matters to the gate. -/
structure Blob where
  size : Nat
deriving DecidableEq, Repr

/-- One accepted story frame `{id, url, blob}` (the object URL is keyed by id). -/
structure Frame where
  id : Nat
  blob : Blob
deriving DecidableEq, Repr

/-- Toast shown when all three frames are already filled. -/
def msgAllFilled : String := "All three frames are filled"

/-- Toast shown when the capture failed (canvas not ready). -/
def msgDrawFirst : String := "Draw something first"

/-- Toast shown when the quality gate rejects the capture. -/
def msgNoDetail : String := "I can’t see enough detail yet — add a clear shape or character."

/-- `addToStory` (App.jsx lines 1328–1347): the new frame list and the toast
message, given the captured blob (`none` when `capture()` failed) and the
64×64 downsample used for the variance heuristic. -/
def addToStory (frames : List Frame) (captured : Option Blob) (px64 : List Rgba)
    (newId : Nat) : List Frame × Option String :=
  if 3 ≤ frames.length then (frames, some msgAllFilled)
  else
    match captured with
    | none => (frames, some msgDrawFirst)
    | some b =>
      if b.size < 3000 ∨ measureVariance px64 < 400 then (frames, some msgNoDetail)
      else (frames ++ [{ id := newId, blob := b }], none)

/-- `removeFrame` (App.jsx line 1350): keep the frames with a different id. -/
def removeFrame (frames : List Frame) (i : Nat) : List Frame :=
  frames.filter (fun f => f.id != i)

/-- `drop(e, i)` (App.jsx line 1353) reordering slot `fromIdx` to slot `toIdx`;
`dragStart` only arms a slot that holds a frame, so `fromIdx < frames.length`,
and JS `splice(toIdx, 0, it)` clamps the insertion index to the list length. -/
def reorderFrames (frames : List Frame) (fromIdx toIdx : Nat) : List Frame :=
  if fromIdx = toIdx then frames
  else
    match frames.get? fromIdx with
    | none => frames
    | some it =>
      let n := frames.eraseIdx fromIdx
      n.insertIdx (min toIdx n.length) it

/-- A user-visible operation on the panel collection. -/
inductive PanelOp where
  | add (captured : Option Blob) (px64 : List Rgba) (newId : Nat)
  | remove (i : Nat)
  | reorder (fromIdx toIdx : Nat)
  | loadExample (f1 f2 f3 : Frame)

/-- Apply one panel operation (`tryExample`, App.jsx lines 1283–1295, replaces
the collection with the three bundled example scenes). -/
def stepPanels (frames : List Frame) : PanelOp → List Frame
  | .add c px n => (addToStory frames c px n).1
  | .remove i => removeFrame frames i
  | .reorder i j => reorderFrames frames i j
  | .loadExample f1 f2 f3 => [f1, f2, f3]

/-- The active drawing tool. -/
inductive Tool where
  | brush
  | eraser
  | fill
deriving DecidableEq, Repr

/-- The free-drawing configuration `applyBrush` installs on the canvas. -/
structure BrushConfig where
  isDrawingMode : Bool
  strokeColor : Option String
  strokeWidth : Option Nat
deriving DecidableEq, Repr

/-- `applyBrush` (App.jsx lines 1134–1158): the fill tool disables free
drawing; otherwise a pencil brush of width `Number(size) || 3` whose color is
the fixed `'#ffffff'` for the eraser and the picked color for the brush. -/
def applyBrush (tool : Tool) (color : String) (size : Nat) : BrushConfig :=
  if tool = Tool.fill then { isDrawingMode := false, strokeColor := none, strokeWidth := none }
  else
    { isDrawingMode := true
      strokeColor := some (if tool = Tool.eraser then "#ffffff" else color)
      strokeWidth := some (if size = 0 then 3 else size) }

/-! ## List helper lemmas -/

theorem getD_set_self {α : Type} (l : List α) (i : Nat) (a d : α) (h : i < l.length) :
    (l.set i a).getD i d = a := by
  induction l generalizing i with
  | nil => simp at h
  | cons x xs ih =>
    cases i with
    | zero => simp [List.set, List.getD]
    | succ j => simpa [List.set, List.getD] using ih j (by simpa using h)

theorem getD_set_other {α : Type} (l : List α) (i j : Nat) (a d : α) (h : i ≠ j) :
    (l.set i a).getD j d = l.getD j d := by
  induction l generalizing i j with
  | nil => simp [List.set]
  | cons x xs ih =>
    cases i with
    | zero =>
      cases j with
      | zero => exact absurd rfl h
      | succ j' => simp [List.set, List.getD]
    | succ i' =>
      cases j with
      | zero => simp [List.set, List.getD]
      | succ j' => simpa [List.set, List.getD] using ih i' j' (by omega)

theorem getD_replicate {α : Type} (n i : Nat) (x d : α) (h : i < n) :
    (List.replicate n x).getD i d = x := by
  induction n generalizing i with
  | zero => omega
  | succ m ih =>
    cases i with
    | zero => simp [List.replicate, List.getD]
    | succ j => simpa [List.replicate, List.getD] using ih j (by omega)

theorem countZeros_replicate (n : Nat) : countZeros (List.replicate n 0) = n := by
  induction n with
  | zero => rfl
  | succ m ih =>
    simp [List.replicate, countZeros, ih]
    omega

theorem countZeros_set (l : List Nat) (i : Nat) (h : i < l.length)
    (h0 : l.getD i 0 = 0) : countZeros (l.set i 1) + 1 = countZeros l := by
  induction l generalizing i with
  | nil => simp at h
  | cons x xs ih =>
    cases i with
    | zero =>
      simp [List.getD] at h0
      simp [List.set, countZeros, h0]
      omega
    | succ j =>
      have h0' : xs.getD j 0 = 0 := by simpa [List.getD] using h0
      have := ih j (by simpa using h) h0'
      simp [List.set, countZeros]
      omega

theorem getLastD_eq_getD {α : Type} (l : List α) (d : α) :
    l.getLastD d = l.getD (l.length - 1) d := by
  induction l using List.reverseRecOn with
  | nil => rfl
  | append_singleton xs a ih =>
    rw [List.getLastD_concat]
    have hlen : (xs ++ [a]).length - 1 = xs.length := by simp
    rw [hlen, List.getD_append_right xs [a] d xs.length (le_refl xs.length)]
    simp [List.getD]

theorem getLastD_irrel {α : Type} (l : List α) (hl : l ≠ []) (d1 d2 : α) :
    l.getLastD d1 = l.getLastD d2 := by
  induction l using List.reverseRecOn with
  | nil => exact absurd rfl hl
  | append_singleton xs a ih => rw [List.getLastD_concat, List.getLastD_concat]

/-! ## History manager: C2, C3, C4 -/

theorem pushOp_capInv {α : Type} (s : α) (h : Hist α) (hc : histCapInv h) :
    histCapInv (pushOp s h) := by
  obtain ⟨h1, h2⟩ := hc
  unfold histCapInv pushOp at *
  by_cases hcap : 30 < (h.undo ++ [s]).length
  · rw [if_pos hcap]
    simp only [List.length_drop, List.length_append, List.length_cons,
      List.length_nil] at *
    omega
  · rw [if_neg hcap]
    simp only [List.length_append, List.length_cons, List.length_nil] at *
    omega

theorem undoOp_capInv {α : Type} (h : Hist α) (hc : histCapInv h) :
    histCapInv (undoOp h) := by
  obtain ⟨h1, h2⟩ := hc
  unfold histCapInv undoOp at *
  by_cases hle : h.undo.length ≤ 1
  · rw [if_pos hle]; exact ⟨h1, h2⟩
  · rw [if_neg hle]
    simp only [List.length_dropLast, List.length_append, List.length_cons,
      List.length_nil]
    omega

theorem redoOp_capInv {α : Type} (h : Hist α) (hc : histCapInv h) :
    histCapInv (redoOp h) := by
  obtain ⟨h1, h2⟩ := hc
  unfold histCapInv redoOp at *
  by_cases hre : h.redo.length = 0
  · rw [if_pos hre]; exact ⟨h1, h2⟩
  · rw [if_neg hre]
    simp only [List.length_append, List.length_cons, List.length_nil,
      List.length_dropLast]
    omega

theorem applyHOps_capInv {α : Type} (h : Hist α) (ops : List (HOp α))
    (hc : histCapInv h) : histCapInv (applyHOps h ops) := by
  induction ops generalizing h with
  | nil => exact hc
  | cons op rest ih =>
    have hstep : histCapInv (applyHOp h op) := by
      cases op with
      | commit s => exact pushOp_capInv s h hc
      | undo => exact undoOp_capInv h hc
      | redo => exact redoOp_capInv h hc
    simpa [applyHOps, List.foldl_cons] using ih (applyHOp h op) hstep

theorem applyHOps_append {α : Type} (h : Hist α) (xs ys : List (HOp α)) :
    applyHOps h (xs ++ ys) = applyHOps (applyHOps h xs) ys := by
  simp [applyHOps, List.foldl_append]

theorem applyHOps_commits {α : Type} (c0 : α) (l : List α) :
    (applyHOps (initHist c0) (l.map HOp.commit)).undo = l.drop (l.length - 30) := by
  induction l using List.reverseRecOn with
  | nil => simp [applyHOps, initHist]
  | append_singleton xs a ih =>
    rw [List.map_append, applyHOps_append]
    have hlen : (applyHOps (initHist c0) (xs.map HOp.commit)).undo.length =
        xs.length - (xs.length - 30) := by rw [ih, List.length_drop]
    show (pushOp a (applyHOps (initHist c0) (xs.map HOp.commit))).undo = _
    unfold pushOp
    by_cases hcap : 30 <
        ((applyHOps (initHist c0) (xs.map HOp.commit)).undo ++ [a]).length
    · rw [if_pos hcap]
      simp only [List.length_append, List.length_cons, List.length_nil, hlen] at hcap
      have h30 : 30 ≤ xs.length := by omega
      rw [ih]
      have hd1 : 1 ≤ (xs.drop (xs.length - 30)).length := by
        rw [List.length_drop]; omega
      rw [List.drop_append_of_le_length hd1, List.drop_drop]
      have he1 : xs.length - 30 + 1 = (xs ++ [a]).length - 30 := by
        simp only [List.length_append, List.length_cons, List.length_nil]
        omega
      have he2 : (xs ++ [a]).length - 30 ≤ xs.length := by
        simp only [List.length_append, List.length_cons, List.length_nil]
        omega
      rw [he1, List.drop_append_of_le_length he2]
    · rw [if_neg hcap]
      simp only [List.length_append, List.length_cons, List.length_nil, hlen] at hcap
      have h30 : xs.length ≤ 29 := by omega
      have he0 : xs.length - 30 = 0 := by omega
      have he1 : (xs ++ [a]).length - 30 = 0 := by
        simp only [List.length_append, List.length_cons, List.length_nil]
        omega
      rw [ih, he0, he1, List.drop_zero, List.drop_zero]

/-- C2: after every sequence of commit/undo/redo operations from the mounted
state the undo stack holds at most 30 snapshots, and a run of 35 commits keeps
exactly the 30 most recent ones (the oldest 5 are evicted, hence unrecoverable
via undo). -/
theorem undoStack_cap {α : Type} (c0 : α) (ops : List (HOp α)) (l : List α)
    (hl : l.length = 35) :
    (applyHOps (initHist c0) ops).undo.length ≤ 30 ∧
    (applyHOps (initHist c0) (l.map HOp.commit)).undo = l.drop 5 := by
  constructor
  · exact (applyHOps_capInv (initHist c0) ops (by simp [histCapInv, initHist])).1
  · rw [applyHOps_commits, hl]

theorem undoStack_cap_witness :
    (applyHOps (initHist (0 : Nat)) []).undo.length ≤ 30 ∧
    (applyHOps (initHist (0 : Nat)) ((List.range 35).map HOp.commit)).undo =
      (List.range 35).drop 5 :=
  undoStack_cap 0 [] (List.range 35) (by simp)

/-- C3 counterexample: from the reachable state `undo = [1], redo = [2],
cur = 1` (commit 1, commit 2, undo), calling `undo()` — a no-op because the
stack is at its floor — and then `redo()` does not restore the state that was
current before the undo: it restores 2, not 1. -/
theorem redo_after_undo_cex :
    (redoOp (undoOp (undoOp (pushOp 2 (pushOp 1 (initHist (0 : Nat))))))).cur ≠
      (undoOp (pushOp 2 (pushOp 1 (initHist (0 : Nat))))).cur := by decide

/-- C3 (amended): when the undo stack has at least two entries — so that
`undo()` actually takes effect — and its top is the current scene (the invariant
the engine maintains), `redo()` immediately after `undo()` restores the exact
pre-undo state; and any commit clears the redo stack, so `redo()` right after a
commit is a no-op. -/
theorem redo_after_undo {α : Type} (h : Hist α) (h2 : 2 ≤ h.undo.length)
    (hc : h.cur = h.undo.getLastD h.cur) (s : α) (g : Hist α) :
    redoOp (undoOp h) = h ∧ (pushOp s g).redo = [] ∧
      redoOp (pushOp s g) = pushOp s g := by
  refine ⟨?_, rfl, ?_⟩
  · obtain ⟨c, u, r⟩ := h
    rcases u.eq_nil_or_concat with rfl | ⟨us, t, rfl⟩
    · simp at h2
    · simp only [List.concat_eq_append] at h2 hc ⊢
      simp only [List.getLastD_concat] at hc
      have hlen : ¬((us ++ [t]).length ≤ 1) := by
        simp only [List.length_append, List.length_cons, List.length_nil] at h2 ⊢
        omega
      have hu : undoOp ⟨c, us ++ [t], r⟩ =
          ⟨us.getLastD c, us, r ++ [t]⟩ := by
        unfold undoOp
        rw [if_neg hlen]
        simp [List.getLastD_concat, List.dropLast_concat]
      rw [hu]
      have hr : ¬((r ++ [t]).length = 0) := by simp
      unfold redoOp
      rw [if_neg hr]
      simp [List.getLastD_concat, List.dropLast_concat, hc]
  · unfold redoOp pushOp
    simp

theorem redo_after_undo_witness :
    redoOp (undoOp (pushOp 2 (pushOp 1 (initHist (0 : Nat))))) =
      pushOp 2 (pushOp 1 (initHist (0 : Nat))) ∧
    (pushOp 3 (initHist (0 : Nat))).redo = [] ∧
    redoOp (pushOp 3 (initHist (0 : Nat))) = pushOp 3 (initHist (0 : Nat)) :=
  redo_after_undo (pushOp 2 (pushOp 1 (initHist 0))) (by decide) (by decide) 3
    (initHist 0)

theorem applyHOps_commits_cleared {α : Type} (s0 : α) (l : List α)
    (hlen : l.length + 1 ≤ 30) :
    applyHOps (clearedHist s0) (l.map HOp.commit) =
      ⟨(s0 :: l).getLastD s0, s0 :: l, []⟩ := by
  induction l using List.reverseRecOn with
  | nil => simp [applyHOps, clearedHist, List.getLastD]
  | append_singleton xs a ih =>
    have hxs : xs.length + 1 ≤ 30 := by
      simp only [List.length_append, List.length_cons, List.length_nil] at hlen
      omega
    rw [List.map_append, applyHOps_append, ih hxs]
    show pushOp a _ = _
    unfold pushOp
    have hcap : ¬(30 < ((s0 :: xs) ++ [a]).length) := by
      simp only [List.length_append, List.length_cons, List.length_nil] at hlen ⊢
      omega
    rw [if_neg hcap]
    have hg : (s0 :: (xs ++ [a])).getLastD s0 = a := by
      rw [← List.cons_append, List.getLastD_concat]
    rw [hg, ← List.cons_append]

theorem undo_iter {α : Type} (s0 : α) :
    ∀ (k : Nat) (m : List α) (rs : List α), k ≤ m.length →
      (undoOp^[k] ⟨(s0 :: m).getLastD s0, s0 :: m, rs⟩).cur =
        (s0 :: m).getD (m.length - k) s0 := by
  intro k
  induction k with
  | zero =>
    intro m rs _
    simp only [Function.iterate_zero, id]
    have := getLastD_eq_getD (s0 :: m) s0
    simpa using this
  | succ k ih =>
    intro m rs hk
    rcases m.eq_nil_or_concat with rfl | ⟨ms, t, rfl⟩
    · simp at hk
    · simp only [List.concat_eq_append] at hk ⊢
      rw [Function.iterate_succ_apply]
      have hstep : undoOp ⟨(s0 :: (ms ++ [t])).getLastD s0, s0 :: (ms ++ [t]), rs⟩ =
          ⟨(s0 :: ms).getLastD s0, s0 :: ms, rs ++ [(s0 :: (ms ++ [t])).getLastD s0]⟩ := by
        unfold undoOp
        have hlen : ¬((s0 :: (ms ++ [t])).length ≤ 1) := by simp
        rw [if_neg hlen]
        have hdl : (s0 :: (ms ++ [t])).dropLast = s0 :: ms := by
          rw [← List.cons_append, List.dropLast_concat]
        have hlast : (s0 :: (ms ++ [t])).getLastD ((s0 :: (ms ++ [t])).getLastD s0) =
            (s0 :: (ms ++ [t])).getLastD s0 :=
          getLastD_irrel _ (by simp) _ _
        have hcur : (s0 :: ms).getLastD ((s0 :: (ms ++ [t])).getLastD s0) =
            (s0 :: ms).getLastD s0 :=
          getLastD_irrel _ (by simp) _ _
        simp only [hdl, hlast, hcur]
      rw [hstep]
      have hk' : k ≤ ms.length := by
        simp only [List.length_append, List.length_cons, List.length_nil] at hk
        omega
      rw [ih ms (rs ++ [(s0 :: (ms ++ [t])).getLastD s0]) hk']
      have hidx : (ms ++ [t]).length - (k + 1) = ms.length - k := by
        simp only [List.length_append, List.length_cons, List.length_nil]
        omega
      rw [hidx]
      have hlt : ms.length - k < (s0 :: ms).length := by simp; omega
      rw [← List.cons_append, List.getD_append (s0 :: ms) [t] s0 (ms.length - k) hlt]

/-- C4: starting from the cleared initial snapshot, after N < 30 committed
mutations, each prefix of undo() calls shows exactly the corresponding prior
snapshot, N undos return to the initial state, and undo() is a no-op whenever
the undo stack has at most one entry (the floor snapshot is never discarded). -/
theorem undo_roundtrip {α : Type} (s0 : α) (l : List α) (hn : l.length < 30)
    (k : Nat) (hk : k ≤ l.length) (g : Hist α) (hg : g.undo.length ≤ 1) :
    (undoOp^[k] (applyHOps (clearedHist s0) (l.map HOp.commit))).cur =
        (s0 :: l).getD (l.length - k) s0 ∧
    (undoOp^[l.length] (applyHOps (clearedHist s0) (l.map HOp.commit))).cur = s0 ∧
    undoOp g = g := by
  have hc := applyHOps_commits_cleared s0 l (by omega)
  refine ⟨?_, ?_, ?_⟩
  · rw [hc]
    exact undo_iter s0 k l [] hk
  · rw [hc]
    have := undo_iter s0 l.length l [] (le_refl _)
    simpa using this
  · unfold undoOp
    rw [if_pos hg]

theorem undo_roundtrip_witness :
    (undoOp^[1] (applyHOps (clearedHist (0 : Nat)) ([1, 2].map HOp.commit))).cur =
        ((0 : Nat) :: [1, 2]).getD ([1, 2].length - 1) 0 ∧
    (undoOp^[[1, 2].length] (applyHOps (clearedHist (0 : Nat)) ([1, 2].map HOp.commit))).cur
        = 0 ∧
    undoOp (initHist (0 : Nat)) = initHist 0 :=
  undo_roundtrip 0 [1, 2] (by decide) 1 (by decide) (initHist 0) (by decide)

/-! ## Flood fill: path and index lemmas -/

theorem FillPath_mono {P Q : Int × Int → Prop} (hPQ : ∀ p, P p → Q p) :
    ∀ {a b : Int × Int}, FillPath P a b → FillPath Q a b := by
  intro a b h
  induction h with
  | refl p hp => exact FillPath.refl p (hPQ p hp)
  | cons p q r hp hadj _ ih => exact FillPath.cons p q r (hPQ p hp) hadj ih

theorem FillPath_last_ok {P : Int × Int → Prop} :
    ∀ {a b : Int × Int}, FillPath P a b → P b := by
  intro a b h
  induction h with
  | refl p hp => exact hp
  | cons p q r _ _ _ ih => exact ih

theorem FillPath_snoc {P : Int × Int → Prop} :
    ∀ {a b c : Int × Int}, FillPath P a b → adjacent b c → P c → FillPath P a c := by
  intro a b c h
  induction h with
  | refl p hp => intro hadj hc; exact FillPath.cons p c c hp hadj (FillPath.refl c hc)
  | cons p q r hp hadj _ ih =>
    intro hbc hc
    exact FillPath.cons p q c hp hadj (ih hbc hc)

theorem FillPath_avoid {P : Int × Int → Prop} (c : Int × Int) :
    ∀ {a b : Int × Int}, FillPath P a b → b ≠ c →
      FillPath (fun p => P p ∧ p ≠ c) a b ∨
        ∃ d, adjacent c d ∧ FillPath (fun p => P p ∧ p ≠ c) d b := by
  intro a b h
  induction h with
  | refl p hp => intro hb; exact Or.inl (FillPath.refl p ⟨hp, hb⟩)
  | cons p q r hp hadj _ ih =>
    intro hb
    rcases ih hb with h1 | h2
    · by_cases hpc : p = c
      · subst hpc
        exact Or.inr ⟨q, hadj, h1⟩
      · exact Or.inl (FillPath.cons p q r ⟨hp, hpc⟩ hadj h1)
    · exact Or.inr h2

theorem pixIdx_lt {W H : Nat} {p : Int × Int} (h : inBounds W H p) :
    pixIdx W p < W * H := by
  obtain ⟨h1, h2, h3, h4⟩ := h
  unfold pixIdx
  have hx : p.1.toNat < W := by omega
  have hy : p.2.toNat < H := by omega
  calc p.2.toNat * W + p.1.toNat < p.2.toNat * W + W := by omega
    _ = (p.2.toNat + 1) * W := by ring
    _ ≤ H * W := Nat.mul_le_mul_right W (by omega)
    _ = W * H := Nat.mul_comm H W

theorem pixIdx_inj {W H : Nat} {p q : Int × Int} (hp : inBounds W H p)
    (hq : inBounds W H q) (he : pixIdx W p = pixIdx W q) : p = q := by
  obtain ⟨px, py⟩ := p
  obtain ⟨qx, qy⟩ := q
  obtain ⟨hp1, hp2, hp3, hp4⟩ := hp
  obtain ⟨hq1, hq2, hq3, hq4⟩ := hq
  simp only at hp1 hp2 hp3 hp4 hq1 hq2 hq3 hq4
  unfold pixIdx at he
  simp only at he
  have hxp : px.toNat < W := by omega
  have hxq : qx.toNat < W := by omega
  have e1 : px.toNat = qx.toNat := by
    have m1 : (py.toNat * W + px.toNat) % W = px.toNat := by
      rw [Nat.add_comm, Nat.add_mul_mod_self_right]
      exact Nat.mod_eq_of_lt hxp
    have m2 : (qy.toNat * W + qx.toNat) % W = qx.toNat := by
      rw [Nat.add_comm, Nat.add_mul_mod_self_right]
      exact Nat.mod_eq_of_lt hxq
    rw [← m1, he, m2]
  have e2 : py.toNat = qy.toNat := by
    have hmul : py.toNat * W = qy.toNat * W := by omega
    exact Nat.eq_of_mul_eq_mul_right (by omega) hmul
  have ex : px = qx := by omega
  have ey : py = qy := by omega
  rw [ex, ey]

theorem floodLoop_nil (W H : Nat) (target fill : Rgba) (fuel : Nat)
    (data : List Rgba) (visited : List Nat) :
    floodLoop W H target fill (fuel + 1) [] data visited = some (data, visited) := rfl

theorem floodLoop_cons (W H : Nat) (target fill : Rgba) (fuel : Nat) (x y : Int)
    (rest : List (Int × Int)) (data : List Rgba) (visited : List Nat) :
    floodLoop W H target fill (fuel + 1) ((x, y) :: rest) data visited =
      (if x < 0 ∨ y < 0 ∨ (W : Int) ≤ x ∨ (H : Int) ≤ y then
        floodLoop W H target fill fuel rest data visited
      else if visited.getD (pixIdx W (x, y)) 0 ≠ 0 then
        floodLoop W H target fill fuel rest data visited
      else if matchPx (data.getD (pixIdx W (x, y)) default) target then
        floodLoop W H target fill fuel
          ((x, y - 1) :: (x, y + 1) :: (x - 1, y) :: (x + 1, y) :: rest)
          (data.set (pixIdx W (x, y)) fill) (visited.set (pixIdx W (x, y)) 1)
      else floodLoop W H target fill fuel rest data visited) := rfl

theorem floodLoop_term (W H : Nat) (target fill : Rgba) :
    ∀ (fuel : Nat) (stack : List (Int × Int)) (data : List Rgba) (visited : List Nat),
      visited.length = W * H →
      4 * countZeros visited + stack.length < fuel →
      ∃ r, floodLoop W H target fill fuel stack data visited = some r := by
  intro fuel
  induction fuel with
  | zero =>
    intro stack data visited _ hm
    omega
  | succ fuel ih =>
    intro stack data visited hv hm
    match stack with
    | [] => exact ⟨(data, visited), floodLoop_nil W H target fill fuel data visited⟩
    | (x, y) :: rest =>
      simp only [List.length_cons] at hm
      rw [floodLoop_cons]
      by_cases hb : x < 0 ∨ y < 0 ∨ (W : Int) ≤ x ∨ (H : Int) ≤ y
      · rw [if_pos hb]
        exact ih rest data visited hv (by omega)
      · rw [if_neg hb]
        by_cases hvis : visited.getD (pixIdx W (x, y)) 0 ≠ 0
        · rw [if_pos hvis]
          exact ih rest data visited hv (by omega)
        · rw [if_neg hvis]
          by_cases hmx : matchPx (data.getD (pixIdx W (x, y)) default) target = true
          · rw [if_pos hmx]
            push_neg at hb
            have hbin : inBounds W H (x, y) := ⟨by omega, by omega, by omega, by omega⟩
            have hlt : pixIdx W (x, y) < visited.length := by
              rw [hv]; exact pixIdx_lt hbin
            have hz : visited.getD (pixIdx W (x, y)) 0 = 0 := by
              by_contra hne
              exact hvis hne
            have hcnt := countZeros_set visited (pixIdx W (x, y)) hlt hz
            apply ih
            · rw [List.length_set]; exact hv
            · simp only [List.length_cons]
              omega
          · rw [if_neg hmx]
            exact ih rest data visited hv (by omega)

/-- C6: the iterative explicit-stack flood fill terminates on every finite
W×H pixel buffer and every seed: the visited bitmap lets each pixel be colored
at most once, so the loop finishes within 4*W*H + 2 fuel steps (each of the at
most W*H matched pixels pushes at most 4 neighbors). -/
theorem floodLoop_terminates_bounded (W H : Nat) (target fill : Rgba)
    (data : List Rgba) (seed : Int × Int) :
    ∃ r, floodLoop W H target fill (4 * (W * H) + 2) [seed] data
        (List.replicate (W * H) 0) = some r :=
  floodLoop_term W H target fill (4 * (W * H) + 2) [seed] data
    (List.replicate (W * H) 0) (by simp)
    (by rw [countZeros_replicate]; simp)

theorem FillPath_head_ok {P : Int × Int → Prop} {a b : Int × Int}
    (h : FillPath P a b) : P a := by
  cases h with
  | refl p hp => exact hp
  | cons p q r hp _ _ => exact hp

theorem floodLoop_inv (W H : Nat) (data0 : List Rgba) (target fill : Rgba)
    (seed : Int × Int) :
    ∀ (fuel : Nat) (stack : List (Int × Int)) (data : List Rgba) (visited : List Nat),
      4 * countZeros visited + stack.length < fuel →
      LoopInv W H data0 target fill seed stack data visited →
      ∃ d v, floodLoop W H target fill fuel stack data visited = some (d, v) ∧
        d.length = W * H ∧
        (∀ p, FillReach W H data0 target seed p →
          d.getD (pixIdx W p) default = fill) ∧
        (∀ p, inBounds W H p → ¬ FillReach W H data0 target seed p →
          d.getD (pixIdx W p) default = data0.getD (pixIdx W p) default) := by
  intro fuel
  induction fuel with
  | zero =>
    intro stack data visited hm _
    omega
  | succ fuel ih =>
    intro stack data visited hm inv
    match stack with
    | [] =>
      refine ⟨data, visited, floodLoop_nil W H target fill fuel data visited,
        inv.hdlen, ?_, ?_⟩
      · intro p hreach
        have hvz : visited.getD (pixIdx W p) 0 ≠ 0 := by
          rcases inv.hfull p hreach with h | ⟨q, hq, _⟩
          · exact h
          · simp at hq
        have hpin : inBounds W H p := (FillPath_last_ok hreach).1
        exact (inv.hvis p hpin hvz).2
      · intro p hpin hnreach
        by_cases hvz : visited.getD (pixIdx W p) 0 = 0
        · exact inv.horig p hpin hvz
        · exact absurd (inv.hvis p hpin hvz).1 hnreach
    | (x, y) :: rest =>
      simp only [List.length_cons] at hm
      rw [floodLoop_cons]
      by_cases hb : x < 0 ∨ y < 0 ∨ (W : Int) ≤ x ∨ (H : Int) ≤ y
      · rw [if_pos hb]
        apply ih rest data visited (by omega)
        refine ⟨inv.hvlen, inv.hdlen, inv.hvis, inv.horig, ?_, ?_⟩
        · intro p hp
          exact inv.hstack p (List.mem_cons_of_mem _ hp)
        · intro q hq
          rcases inv.hfull q hq with h | ⟨p, hpmem, hpath⟩
          · exact Or.inl h
          · rcases List.mem_cons.mp hpmem with rfl | hpr
            · exfalso
              obtain ⟨⟨hin, _⟩, _⟩ := FillPath_head_ok hpath
              obtain ⟨h1, h2, h3, h4⟩ := hin
              simp only at h1 h2 h3 h4
              rcases hb with hb | hb | hb | hb <;> omega
            · exact Or.inr ⟨p, hpr, hpath⟩
      · rw [if_neg hb]
        push_neg at hb
        obtain ⟨hb1, hb2, hb3, hb4⟩ := hb
        have hbin : inBounds W H (x, y) := ⟨hb1, hb2, hb3, hb4⟩
        by_cases hvis : visited.getD (pixIdx W (x, y)) 0 ≠ 0
        · rw [if_pos hvis]
          apply ih rest data visited (by omega)
          refine ⟨inv.hvlen, inv.hdlen, inv.hvis, inv.horig, ?_, ?_⟩
          · intro p hp
            exact inv.hstack p (List.mem_cons_of_mem _ hp)
          · intro q hq
            rcases inv.hfull q hq with h | ⟨p, hpmem, hpath⟩
            · exact Or.inl h
            · rcases List.mem_cons.mp hpmem with rfl | hpr
              · exfalso
                obtain ⟨_, hzv⟩ := FillPath_head_ok hpath
                exact hvis hzv
              · exact Or.inr ⟨p, hpr, hpath⟩
        · rw [if_neg hvis]
          have hvz : visited.getD (pixIdx W (x, y)) 0 = 0 := not_not.mp hvis
          by_cases hmx : matchPx (data.getD (pixIdx W (x, y)) default) target = true
          · rw [if_pos hmx]
            have hilt_v : pixIdx W (x, y) < visited.length := by
              rw [inv.hvlen]; exact pixIdx_lt hbin
            have hilt_d : pixIdx W (x, y) < data.length := by
              rw [inv.hdlen]; exact pixIdx_lt hbin
            have hmT : matchPx (data0.getD (pixIdx W (x, y)) default) target = true := by
              rw [← inv.horig (x, y) hbin hvz]; exact hmx
            have hok : okPix W H data0 target (x, y) := ⟨hbin, hmT⟩
            have hreachC : FillReach W H data0 target seed (x, y) := by
              rcases inv.hstack (x, y) (List.mem_cons_self _ _) with heq | ⟨q, hq, hadj⟩
              · rw [← heq]; exact FillPath.refl _ (heq ▸ hok)
              · exact FillPath_snoc hq hadj hok
            have hcnt := countZeros_set visited (pixIdx W (x, y)) hilt_v hvz
            apply ih _ (data.set (pixIdx W (x, y)) fill)
              (visited.set (pixIdx W (x, y)) 1)
              (by simp only [List.length_cons]; omega)
            refine ⟨?_, ?_, ?_, ?_, ?_, ?_⟩
            · rw [List.length_set]; exact inv.hvlen
            · rw [List.length_set]; exact inv.hdlen
            · intro p hpin hpv
              by_cases hpi : pixIdx W p = pixIdx W (x, y)
              · have hpeq : p = (x, y) := pixIdx_inj hpin hbin hpi
                subst hpeq
                exact ⟨hreachC, getD_set_self data (pixIdx W (x, y)) fill default hilt_d⟩
              · have hv' : visited.getD (pixIdx W p) 0 ≠ 0 := by
                  rwa [getD_set_other visited _ _ 1 0 (Ne.symm hpi)] at hpv
                obtain ⟨hr, hd⟩ := inv.hvis p hpin hv'
                exact ⟨hr, by rw [getD_set_other data _ _ fill default (Ne.symm hpi)]; exact hd⟩
            · intro p hpin hpv
              have hpi : pixIdx W p ≠ pixIdx W (x, y) := by
                intro he
                rw [he, getD_set_self visited _ 1 0 hilt_v] at hpv
                exact one_ne_zero hpv
              have hv0 : visited.getD (pixIdx W p) 0 = 0 := by
                rwa [getD_set_other visited _ _ 1 0 (Ne.symm hpi)] at hpv
              rw [getD_set_other data _ _ fill default (Ne.symm hpi)]
              exact inv.horig p hpin hv0
            · intro p hp
              rcases List.mem_cons.mp hp with rfl | hp
              · exact Or.inr ⟨(x, y), hreachC, Or.inr (Or.inr (Or.inr ⟨rfl, rfl⟩))⟩
              rcases List.mem_cons.mp hp with rfl | hp
              · exact Or.inr ⟨(x, y), hreachC, Or.inr (Or.inr (Or.inl ⟨rfl, rfl⟩))⟩
              rcases List.mem_cons.mp hp with rfl | hp
              · exact Or.inr ⟨(x, y), hreachC, Or.inr (Or.inl ⟨rfl, rfl⟩)⟩
              rcases List.mem_cons.mp hp with rfl | hp
              · exact Or.inr ⟨(x, y), hreachC, Or.inl ⟨rfl, rfl⟩⟩
              · exact inv.hstack p (List.mem_cons_of_mem _ hp)
            · intro q hq
              by_cases hqv : (visited.set (pixIdx W (x, y)) 1).getD (pixIdx W q) 0 ≠ 0
              · exact Or.inl hqv
              · right
                have hqv0 : (visited.set (pixIdx W (x, y)) 1).getD (pixIdx W q) 0 = 0 :=
                  not_not.mp hqv
                have hqin : inBounds W H q := (FillPath_last_ok hq).1
                have hqi : pixIdx W q ≠ pixIdx W (x, y) := by
                  intro he
                  rw [he, getD_set_self visited _ 1 0 hilt_v] at hqv0
                  exact one_ne_zero hqv0
                have hqne : q ≠ (x, y) := fun he => hqi (by rw [he])
                have hqv0' : visited.getD (pixIdx W q) 0 = 0 := by
                  rwa [getD_set_other visited _ _ 1 0 (Ne.symm hqi)] at hqv0
                rcases inv.hfull q hq with hv1 | ⟨p1, hp1mem, hpath⟩
                · exact absurd hqv0' hv1
                · have hmono : ∀ z, (okPixU W H data0 target visited z ∧ z ≠ (x, y)) →
                      okPixU W H data0 target (visited.set (pixIdx W (x, y)) 1) z := by
                    rintro z ⟨⟨hzok, hzv⟩, hzne⟩
                    refine ⟨hzok, ?_⟩
                    have hzi : pixIdx W z ≠ pixIdx W (x, y) := by
                      intro he
                      exact hzne (pixIdx_inj hzok.1 hbin he)
                    rw [getD_set_other visited _ _ 1 0 (Ne.symm hzi)]
                    exact hzv
                  rcases FillPath_avoid (x, y) hpath hqne with hpa | ⟨d', hadj, hpa⟩
                  · have hne1 : p1 ≠ (x, y) := (FillPath_head_ok hpa).2
                    have hp1r : p1 ∈ rest := by
                      rcases List.mem_cons.mp hp1mem with rfl | h
                      · exact absurd rfl hne1
                      · exact h
                    exact ⟨p1,
                      List.mem_cons_of_mem _ (List.mem_cons_of_mem _
                        (List.mem_cons_of_mem _ (List.mem_cons_of_mem _ hp1r))),
                      FillPath_mono hmono hpa⟩
                  · obtain ⟨d1, d2⟩ := d'
                    have hd'mem : (d1, d2) ∈
                        ((x, y - 1) :: (x, y + 1) :: (x - 1, y) :: (x + 1, y) :: rest) := by
                      rcases hadj with ⟨e1, e2⟩ | ⟨e1, e2⟩ | ⟨e1, e2⟩ | ⟨e1, e2⟩ <;>
                        simp only at e1 e2 <;> subst e1 <;> subst e2 <;>
                        simp [List.mem_cons]
                    exact ⟨(d1, d2), hd'mem, FillPath_mono hmono hpa⟩
          · rw [if_neg hmx]
            have hmT : ¬(matchPx (data0.getD (pixIdx W (x, y)) default) target = true) := by
              rw [← inv.horig (x, y) hbin hvz]; exact hmx
            apply ih rest data visited (by omega)
            refine ⟨inv.hvlen, inv.hdlen, inv.hvis, inv.horig, ?_, ?_⟩
            · intro p hp
              exact inv.hstack p (List.mem_cons_of_mem _ hp)
            · intro q hq
              rcases inv.hfull q hq with h | ⟨p, hpmem, hpath⟩
              · exact Or.inl h
              · rcases List.mem_cons.mp hpmem with rfl | hpr
                · exfalso
                  obtain ⟨⟨_, hzm⟩, _⟩ := FillPath_head_ok hpath
                  exact hmT hzm
                · exact Or.inr ⟨p, hpr, hpath⟩

instance (W H : Nat) (data : List Rgba) (t : Rgba) (p : Int × Int) :
    Decidable (okPix W H data t p) := by
  unfold okPix; infer_instance

theorem floodFillAt_eq (W H : Nat) (data : List Rgba) (sx sy : Int)
    (fillHex : List Char) :
    floodFillAt W H data sx sy fillHex =
      if sx < 0 ∨ sy < 0 ∨ (W : Int) ≤ sx ∨ (H : Int) ≤ sy then none
      else if data.getD (pixIdx W (sx, sy)) default = hexToRgba fillHex then none
      else
        (floodLoop W H (data.getD (pixIdx W (sx, sy)) default) (hexToRgba fillHex)
          (4 * (W * H) + 2) [(sx, sy)] data (List.replicate (W * H) 0)).map
          Prod.fst := rfl

/-- C1 (amended): for every buffer, in-bounds seed and fill color whose value
differs from the sampled target (otherwise the call no-ops), the flood fill
commits a buffer that holds the fill color exactly on the 4-connected region
of pixels within per-channel tolerance 8 of the target, and the original value
everywhere else. -/
theorem floodFill_region (W H : Nat) (data : List Rgba) (sx sy : Int)
    (fillHex : List Char) (hd : data.length = W * H)
    (hin : inBounds W H (sx, sy))
    (hne : data.getD (pixIdx W (sx, sy)) default ≠ hexToRgba fillHex) :
    ∃ out, floodFillAt W H data sx sy fillHex = some out ∧
      out.length = W * H ∧
      (∀ p, FillReach W H data (data.getD (pixIdx W (sx, sy)) default) (sx, sy) p →
        out.getD (pixIdx W p) default = hexToRgba fillHex) ∧
      (∀ p, inBounds W H p →
        ¬ FillReach W H data (data.getD (pixIdx W (sx, sy)) default) (sx, sy) p →
        out.getD (pixIdx W p) default = data.getD (pixIdx W p) default) := by
  have hb : ¬(sx < 0 ∨ sy < 0 ∨ (W : Int) ≤ sx ∨ (H : Int) ≤ sy) := by
    obtain ⟨h1, h2, h3, h4⟩ := hin
    simp only at h1 h2 h3 h4
    push_neg
    exact ⟨by omega, by omega, by omega, by omega⟩
  rw [floodFillAt_eq, if_neg hb, if_neg hne]
  obtain ⟨d, v, heq, hlen, hfill, horig⟩ :=
    floodLoop_inv W H data (data.getD (pixIdx W (sx, sy)) default)
      (hexToRgba fillHex) (sx, sy) (4 * (W * H) + 2) [(sx, sy)] data
      (List.replicate (W * H) 0)
      (by rw [countZeros_replicate]; simp)
      ⟨by simp, hd,
        fun p hpin hpv => absurd
          (getD_replicate (W * H) (pixIdx W p) 0 0 (pixIdx_lt hpin)) hpv,
        fun p _ _ => rfl,
        fun p hp => by
          rcases List.mem_cons.mp hp with rfl | h
          · exact Or.inl rfl
          · simp at h,
        fun q hq => Or.inr ⟨(sx, sy), List.mem_cons_self _ _,
          FillPath_mono
            (fun z hz =>
              ⟨hz, getD_replicate (W * H) (pixIdx W z) 0 0 (pixIdx_lt hz.1)⟩)
            hq⟩⟩
  exact ⟨d, by rw [heq]; rfl, hlen, hfill, horig⟩

theorem floodFill_region_witness :
    ∃ out, floodFillAt 2 1 [⟨0, 0, 0, 255⟩, ⟨255, 255, 255, 255⟩] 0 0
        ['#', 'f', 'f', '0', '0', '0', '0'] = some out ∧
      out.length = 2 * 1 ∧
      (∀ p, FillReach 2 1 [⟨0, 0, 0, 255⟩, ⟨255, 255, 255, 255⟩]
          (([⟨0, 0, 0, 255⟩, ⟨255, 255, 255, 255⟩] : List Rgba).getD
            (pixIdx 2 (0, 0)) default) (0, 0) p →
        out.getD (pixIdx 2 p) default =
          hexToRgba ['#', 'f', 'f', '0', '0', '0', '0']) ∧
      (∀ p, inBounds 2 1 p →
        ¬ FillReach 2 1 [⟨0, 0, 0, 255⟩, ⟨255, 255, 255, 255⟩]
            (([⟨0, 0, 0, 255⟩, ⟨255, 255, 255, 255⟩] : List Rgba).getD
              (pixIdx 2 (0, 0)) default) (0, 0) p →
        out.getD (pixIdx 2 p) default =
          ([⟨0, 0, 0, 255⟩, ⟨255, 255, 255, 255⟩] : List Rgba).getD
            (pixIdx 2 p) default) :=
  floodFill_region 2 1 [⟨0, 0, 0, 255⟩, ⟨255, 255, 255, 255⟩] 0 0
    ['#', 'f', 'f', '0', '0', '0', '0'] (by decide) (by decide) (by decide)

/-- C1 counterexample: 2×1 buffer [(0,0,0,255), (5,0,0,255)], seed (0,0), fill
#000000.  Pixel (1,0) is in bounds and inside the 4-connected tolerance region
of the sampled target, so the claim requires it to be written with the fill
color; but the sampled target equals the fill exactly, the call no-ops (commits
nothing), and the pixel keeps its value (5,0,0,255) ≠ fill. -/
theorem floodFill_region_cex :
    FillReach 2 1 [⟨0, 0, 0, 255⟩, ⟨5, 0, 0, 255⟩]
        (([⟨0, 0, 0, 255⟩, ⟨5, 0, 0, 255⟩] : List Rgba).getD
          (pixIdx 2 (0, 0)) default) (0, 0) (1, 0) ∧
    inBounds 2 1 (1, 0) ∧
    floodFillAt 2 1 [⟨0, 0, 0, 255⟩, ⟨5, 0, 0, 255⟩] 0 0
        ['#', '0', '0', '0', '0', '0', '0'] = none ∧
    ([⟨0, 0, 0, 255⟩, ⟨5, 0, 0, 255⟩] : List Rgba).getD (pixIdx 2 (1, 0)) default ≠
      hexToRgba ['#', '0', '0', '0', '0', '0', '0'] := by
  refine ⟨?_, by decide, by decide, by decide⟩
  exact FillPath.cons (0, 0) (1, 0) (1, 0) (by decide) (by decide)
    (FillPath.refl (1, 0) (by decide))

/-- C5 (amended): `floodFillAt` is a no-op that commits nothing and pushes no
history snapshot exactly when the seed is out of the canvas bounds or the color
sampled at the seed equals the fill color exactly; sampled colors that are
merely within tolerance of the fill color do not trigger the no-op. -/
theorem fillAt_noop_iff (W H : Nat) (data : List Rgba) (sx sy : Int)
    (fillHex : List Char) :
    floodFillAt W H data sx sy fillHex = none ↔
      ((sx < 0 ∨ sy < 0 ∨ (W : Int) ≤ sx ∨ (H : Int) ≤ sy) ∨
        data.getD (pixIdx W (sx, sy)) default = hexToRgba fillHex) := by
  rw [floodFillAt_eq]
  by_cases hb : sx < 0 ∨ sy < 0 ∨ (W : Int) ≤ sx ∨ (H : Int) ≤ sy
  · rw [if_pos hb]
    exact ⟨fun _ => Or.inl hb, fun _ => rfl⟩
  · rw [if_neg hb]
    by_cases he : data.getD (pixIdx W (sx, sy)) default = hexToRgba fillHex
    · rw [if_pos he]
      exact ⟨fun _ => Or.inr he, fun _ => rfl⟩
    · rw [if_neg he]
      obtain ⟨r, hr⟩ := floodLoop_term W H
        (data.getD (pixIdx W (sx, sy)) default) (hexToRgba fillHex)
        (4 * (W * H) + 2) [(sx, sy)] data (List.replicate (W * H) 0)
        (by simp) (by rw [countZeros_replicate]; simp)
      rw [hr]
      constructor
      · intro hcontra
        simp at hcontra
      · intro hor
        rcases hor with h | h
        · exact absurd h hb
        · exact absurd h he

/-- C5 counterexample: a 1×1 buffer whose single pixel (7,0,0,255) equals the
fill color #000000 within tolerance (every channel differs by ≤ 8) but not
exactly: the call is not a no-op — it commits a changed buffer (followed by a
history push), contradicting the claimed no-op. -/
theorem fillAt_noop_cex :
    matchPx ⟨7, 0, 0, 255⟩ (hexToRgba ['#', '0', '0', '0', '0', '0', '0']) = true ∧
    floodFillAt 1 1 [⟨7, 0, 0, 255⟩] 0 0 ['#', '0', '0', '0', '0', '0', '0'] =
      some [⟨0, 0, 0, 255⟩] := by decide

/-! ## Quality gate and panel collection: C7, C8 -/

theorem addToStory_some (frames : List Frame) (b : Blob) (px : List Rgba)
    (nid : Nat) :
    addToStory frames (some b) px nid =
      if 3 ≤ frames.length then (frames, some msgAllFilled)
      else if b.size < 3000 ∨ measureVariance px < 400 then (frames, some msgNoDetail)
      else (frames ++ [{ id := nid, blob := b }], none) := rfl

theorem measureVariance_uniform (c : Rgba) :
    measureVariance (List.replicate 4096 c) = 0 := by
  simp only [measureVariance, List.map_replicate, List.sum_replicate, nsmul_eq_mul]
  have hc : ((4096 : ℕ) : ℚ) = 64 * 64 := by norm_num
  rw [hc]
  have h4 : (64 * 64 : ℚ) ≠ 0 := by norm_num
  rw [mul_div_cancel_left₀ _ h4, mul_div_cancel_left₀ _ h4]
  simp

/-- C7: with fewer than three frames and a successful capture, `addToStory`
rejects — leaving the collection unchanged and showing the quality message —
exactly when the capture's byte size is below 3000 or the 64×64 grayscale
variance is below 400; and a blank uniform white canvas has variance 0, so its
capture is always rejected this way without mutating the collection. -/
theorem qualityGate_spec (frames : List Frame) (b : Blob) (px : List Rgba)
    (nid : Nat) (hlen : frames.length < 3) :
    (addToStory frames (some b) px nid = (frames, some msgNoDetail) ↔
      (b.size < 3000 ∨ measureVariance px < 400)) ∧
    measureVariance (List.replicate 4096 ⟨255, 255, 255, 255⟩) = 0 ∧
    addToStory frames (some b) (List.replicate 4096 ⟨255, 255, 255, 255⟩) nid =
      (frames, some msgNoDetail) := by
  have hnot3 : ¬(3 ≤ frames.length) := by omega
  refine ⟨?_, measureVariance_uniform _, ?_⟩
  · rw [addToStory_some, if_neg hnot3]
    by_cases hrej : b.size < 3000 ∨ measureVariance px < 400
    · rw [if_pos hrej]
      exact ⟨fun _ => hrej, fun _ => rfl⟩
    · rw [if_neg hrej]
      constructor
      · intro hcontra
        simp at hcontra
      · intro hor
        exact absurd hor hrej
  · rw [addToStory_some, if_neg hnot3,
      if_pos (Or.inr (by rw [measureVariance_uniform]; norm_num))]

theorem qualityGate_spec_witness :
    (addToStory [] (some ⟨5000⟩) (List.replicate 4096 ⟨255, 255, 255, 255⟩) 7 =
        ([], some msgNoDetail) ↔
      ((⟨5000⟩ : Blob).size < 3000 ∨
        measureVariance (List.replicate 4096 ⟨255, 255, 255, 255⟩) < 400)) ∧
    measureVariance (List.replicate 4096 ⟨255, 255, 255, 255⟩) = 0 ∧
    addToStory [] (some ⟨5000⟩) (List.replicate 4096 ⟨255, 255, 255, 255⟩) 7 =
      ([], some msgNoDetail) :=
  qualityGate_spec [] ⟨5000⟩ (List.replicate 4096 ⟨255, 255, 255, 255⟩) 7
    (by decide)

theorem stepPanels_len (frames : List Frame) (op : PanelOp)
    (h : frames.length ≤ 3) : (stepPanels frames op).length ≤ 3 := by
  cases op with
  | add c px n =>
    show (addToStory frames c px n).1.length ≤ 3
    cases c with
    | none =>
      unfold addToStory
      by_cases h3 : 3 ≤ frames.length
      · rw [if_pos h3]; exact h
      · rw [if_neg h3]; exact h
    | some b =>
      rw [addToStory_some]
      by_cases h3 : 3 ≤ frames.length
      · rw [if_pos h3]; exact h
      · rw [if_neg h3]
        by_cases hrej : b.size < 3000 ∨ measureVariance px < 400
        · rw [if_pos hrej]; exact h
        · rw [if_neg hrej]
          simp only [List.length_append, List.length_cons, List.length_nil]
          omega
  | remove i =>
    show (removeFrame frames i).length ≤ 3
    unfold removeFrame
    have := List.length_filter_le (fun f => f.id != i) frames
    omega
  | reorder i j =>
    show (reorderFrames frames i j).length ≤ 3
    unfold reorderFrames
    by_cases hij : i = j
    · rw [if_pos hij]; exact h
    · rw [if_neg hij]
      cases hget : frames.get? i with
      | none => exact h
      | some it =>
        have hi : i < frames.length := by
          by_contra hge
          rw [List.get?_eq_none.mpr (by omega)] at hget
          exact Option.noConfusion hget
        show (List.insertIdx (min j (frames.eraseIdx i).length) it
          (frames.eraseIdx i)).length ≤ 3
        have he : (frames.eraseIdx i).length = frames.length - 1 := by
          rw [List.length_eraseIdx]
          exact if_pos hi
        have hins := List.length_insertIdx_le_succ (frames.eraseIdx i) it
          (min j (frames.eraseIdx i).length)
        omega
  | loadExample f1 f2 f3 =>
    show ([f1, f2, f3] : List Frame).length ≤ 3
    simp

/-- C8: starting from the empty collection, the panel list never exceeds 3
under any sequence of add / remove / reorder / load-example operations (each
single operation preserves the bound), and adding when 3 frames are present is
a no-op that leaves the collection exactly unchanged and shows a message. -/
theorem panels_cap (ops : List PanelOp) (frames : List Frame)
    (h3 : frames.length = 3) (c : Option Blob) (px : List Rgba) (n : Nat) :
    (ops.foldl stepPanels []).length ≤ 3 ∧
    addToStory frames c px n = (frames, some msgAllFilled) := by
  constructor
  · have hfold : ∀ (l : List PanelOp) (fs : List Frame), fs.length ≤ 3 →
        (l.foldl stepPanels fs).length ≤ 3 := by
      intro l
      induction l with
      | nil => intro fs h; exact h
      | cons op rest ih =>
        intro fs h
        exact ih _ (stepPanels_len fs op h)
    exact hfold ops [] (by simp)
  · cases c with
    | none =>
      unfold addToStory
      rw [if_pos (by omega)]
    | some b =>
      rw [addToStory_some, if_pos (by omega)]

theorem panels_cap_witness :
    (([PanelOp.remove 0].foldl stepPanels []).length ≤ 3) ∧
    addToStory [⟨1, ⟨9⟩⟩, ⟨2, ⟨9⟩⟩, ⟨3, ⟨9⟩⟩] none [] 0 =
      ([⟨1, ⟨9⟩⟩, ⟨2, ⟨9⟩⟩, ⟨3, ⟨9⟩⟩], some msgAllFilled) :=
  panels_cap [PanelOp.remove 0] [⟨1, ⟨9⟩⟩, ⟨2, ⟨9⟩⟩, ⟨3, ⟨9⟩⟩] (by decide) none [] 0

/-! ## Brush configuration: C9 -/

/-- C9 (amended): whenever the eraser tool is active, the stroke color is the
fixed constant '#ffffff' — the canvas's initial and cleared background color —
independent of the picked color and of whatever background the surface
currently has. -/
theorem eraser_stroke_white (color : String) (size : Nat) :
    (applyBrush Tool.eraser color size).strokeColor = some "#ffffff" ∧
    (applyBrush Tool.eraser color size).isDrawingMode = true := by
  constructor <;> rfl

/-- C9 counterexample: flood-filling a 1×1 white canvas with #ff0000 installs
an all-red background raster — a reachable surface background — yet the eraser
still strokes with '#ffffff', which does not match that background color. -/
theorem eraser_stroke_cex :
    floodFillAt 1 1 [⟨255, 255, 255, 255⟩] 0 0
        ['#', 'f', 'f', '0', '0', '0', '0'] = some [⟨255, 0, 0, 255⟩] ∧
    (applyBrush Tool.eraser "#000000" 3).strokeColor = some "#ffffff" ∧
    hexToRgba ['#', 'f', 'f', 'f', 'f', 'f', 'f'] ≠ (⟨255, 0, 0, 255⟩ : Rgba) := by
  refine ⟨by decide, rfl, by decide⟩

/-! ## hexToRgba: C10 -/

theorem hexDigit_not_ws {c : Char} (h : isHexDigit c = true) :
    c.isWhitespace = false := by
  have h' : ('0' ≤ c ∧ c ≤ '9') ∨ ('a' ≤ c ∧ c ≤ 'f') ∨ ('A' ≤ c ∧ c ≤ 'F') := by
    simpa [isHexDigit, Bool.or_eq_true, Bool.and_eq_true,
      decide_eq_true_eq, or_assoc] using h
  by_contra hws
  rw [Bool.not_eq_false] at hws
  have hws' : c = ' ' ∨ c = '\t' ∨ c = '\r' ∨ c = '\n' := by
    simpa [Char.isWhitespace, or_assoc] using hws
  rcases hws' with rfl | rfl | rfl | rfl <;>
    rcases h' with ⟨h1, _⟩ | ⟨h1, _⟩ | ⟨h1, _⟩ <;> revert h1 <;> decide

theorem hexToRgba_alpha (s : List Char) : (hexToRgba s).a = 255 := by
  unfold hexToRgba
  by_cases h0 : jsTrim s = []
  · rw [if_pos h0]
  · rw [if_neg h0]
    by_cases h6 : (hexBody s).length ≠ 6
    · rw [if_pos h6]
    · rw [if_neg h6]
      cases hp : jsParseIntHex (hexBody s) with
      | none => rfl
      | some num => rfl

theorem jsTrim_sharp3 (d1 d2 d3 : Char) (h3 : isHexDigit d3 = true) :
    jsTrim ['#', d1, d2, d3] = ['#', d1, d2, d3] := by
  have hh : ('#').isWhitespace = false := by decide
  simp [jsTrim, List.dropWhile_cons, hh, hexDigit_not_ws h3]

theorem jsTrim_sharp6 (d1 d2 d3 : Char) (h3 : isHexDigit d3 = true) :
    jsTrim ['#', d1, d1, d2, d2, d3, d3] = ['#', d1, d1, d2, d2, d3, d3] := by
  have hh : ('#').isWhitespace = false := by decide
  simp [jsTrim, List.dropWhile_cons, hh, hexDigit_not_ws h3]

theorem hexToRgba_shorthand (d1 d2 d3 : Char) (h1 : isHexDigit d1 = true)
    (h2 : isHexDigit d2 = true) (h3 : isHexDigit d3 = true) :
    hexToRgba ['#', d1, d2, d3] = hexToRgba ['#', d1, d1, d2, d2, d3, d3] := by
  have hb4 : hexBody ['#', d1, d2, d3] = [d1, d1, d2, d2, d3, d3] := by
    unfold hexBody
    rw [jsTrim_sharp3 d1 d2 d3 h3]
    simp [List.foldr]
  have hb7 : hexBody ['#', d1, d1, d2, d2, d3, d3] = [d1, d1, d2, d2, d3, d3] := by
    unfold hexBody
    rw [jsTrim_sharp6 d1 d2 d3 h3]
    simp
  unfold hexToRgba
  rw [jsTrim_sharp3 d1 d2 d3 h3, jsTrim_sharp6 d1 d2 d3 h3, hb4, hb7]
  simp

/-- C10 (amended): `hexToRgba` always returns alpha exactly 255; a 3-digit hex
shorthand returns the same value as its doubled 6-digit form; and an input
whose trimmed, '#'-stripped (and possibly doubled) body is not six characters
long, or whose body fails JS `parseInt(-, 16)` entirely (no leading hex digit
after optional whitespace, sign and 0x prefix), yields opaque black
(0,0,0,255).  A six-character body with invalid trailing characters instead
parses its longest leading hex-digit run. -/
theorem hexToRgba_spec (s : List Char) (d1 d2 d3 : Char)
    (h1 : isHexDigit d1 = true) (h2 : isHexDigit d2 = true)
    (h3 : isHexDigit d3 = true) :
    (hexToRgba s).a = 255 ∧
    hexToRgba ['#', d1, d2, d3] = hexToRgba ['#', d1, d1, d2, d2, d3, d3] ∧
    ((hexBody s).length ≠ 6 → hexToRgba s = ⟨0, 0, 0, 255⟩) ∧
    (jsParseIntHex (hexBody s) = none → hexToRgba s = ⟨0, 0, 0, 255⟩) := by
  refine ⟨hexToRgba_alpha s, hexToRgba_shorthand d1 d2 d3 h1 h2 h3, ?_, ?_⟩
  · intro h6
    unfold hexToRgba
    by_cases h0 : jsTrim s = []
    · rw [if_pos h0]
    · rw [if_neg h0, if_pos h6]
  · intro hp
    unfold hexToRgba
    by_cases h0 : jsTrim s = []
    · rw [if_pos h0]
    · rw [if_neg h0]
      by_cases h6 : (hexBody s).length ≠ 6
      · rw [if_pos h6]
      · rw [if_neg h6, hp]

theorem hexToRgba_spec_witness :
    (hexToRgba ['z']).a = 255 ∧
    hexToRgba ['#', 'a', 'b', 'c'] = hexToRgba ['#', 'a', 'a', 'b', 'b', 'c', 'c'] ∧
    ((hexBody ['z']).length ≠ 6 → hexToRgba ['z'] = ⟨0, 0, 0, 255⟩) ∧
    (jsParseIntHex (hexBody ['z']) = none → hexToRgba ['z'] = ⟨0, 0, 0, 255⟩) :=
  hexToRgba_spec ['z'] 'a' 'b' 'c' (by decide) (by decide) (by decide)

/-- C10 counterexample: "12345z" is not a 3- or 6-digit hex color, yet
`hexToRgba` parses the longest valid hex run "12345" (JS parseInt semantics)
and returns (1, 35, 69, 255), not opaque black. -/
theorem hexToRgba_cex :
    hexToRgba ['1', '2', '3', '4', '5', 'z'] = ⟨1, 35, 69, 255⟩ ∧
    hexToRgba ['1', '2', '3', '4', '5', 'z'] ≠ ⟨0, 0, 0, 255⟩ := by decide
